import Mathlib

/-!
Verification development for the batched, overlap-aware chunk iteration engine
of pkg/storage/batch.go (the Batch Planner, Fetch Coordinator and Interval
Partitioner of the chunk-retrieval core).

Times: the query bounds (start, end) are modelled as Int nanoseconds, exactly
like time.Time values compared through UnixNano in the source.  Chunk bounds
(Chunk.From, Chunk.Through) are model.Time milliseconds, converted with
unixNano where the source calls UnixNano.

External collaborators (context, fetcher.Fetcher, the metrics sink) are
modelled as explicit parameters: a per-fetcher FetchOutcome environment stands
for the result of one FetchChunks call plus the context state observed right
after it, and metric counter increments are returned as values.
-/

/-- logproto.Direction. -/
inductive Direction where
  | FORWARD : Direction
  | BACKWARD : Direction
deriving DecidableEq, Repr

/-- The part of chunk.Chunk that batch.go reads: the time span (model.Time
milliseconds), the series fingerprint, the label set and the lazily loaded
payload (nil until fetched).  The payload content itself is irrelevant to the
iteration engine, so it is a bare marker value. -/
structure ChunkData where
  From : Int
  Through : Int
  Fingerprint : Nat
  Metric : List (String × String)
  Data : Option Nat
deriving DecidableEq, Repr

/-- LazyChunk: a chunk reference with its owning fetcher and validity flag. -/
structure LazyChunk where
  Chunk : ChunkData
  Fetcher : Nat
  IsValid : Bool
deriving DecidableEq, Repr

/-- model.Time.UnixNano: milliseconds to nanoseconds. -/
def unixNano (t : Int) : Int := t * 1000000

/-- A label matcher: name plus the compiled match predicate on the label value
(labels.Matcher.Matches). -/
structure Matcher where
  Name : String
  Matches : String → Bool

/-- labels.Labels.Get: value of the named label, empty string when absent. -/
def labelsGet (ls : List (String × String)) (n : String) : String :=
  match ls.find? (fun p => p.1 == n) with
  | some p => p.2
  | none => ""

/-- removeMatchersByName removes, for each listed name, the first matcher
carrying that name (batch.go lines 630-640: inner scan with break). -/
def removeFirstMatcher (n : String) : List Matcher → List Matcher
  | [] => []
  | m :: rest => if m.Name = n then rest else m :: removeFirstMatcher n rest

def removeMatchersByName (matchers : List Matcher) (names : List String) : List Matcher :=
  names.foldl (fun ms n => removeFirstMatcher n ms) matchers

/-- Go error values as seen by isInvalidChunkError: the two checksum sentinel
errors, a promql.ErrStorage wrapper, an errors.Wrap layer (unwound by
errors.Cause), and any other storage error identified by a code. -/
inductive GoError where
  | invalidChecksumChunk : GoError
  | invalidChecksumChunkenc : GoError
  | errStorage : GoError → GoError
  | wrapped : GoError → Nat → GoError
  | other : Nat → GoError
deriving DecidableEq, Repr

/-- errors.Cause: unwrap errors.Wrap layers. -/
def errorsCause : GoError → GoError
  | .wrapped e _ => errorsCause e
  | e => e

/-- isInvalidChunkError (batch.go lines 794-800): the cause must be a
promql.ErrStorage whose inner error is chunk.ErrInvalidChecksum or
chunkenc.ErrInvalidChecksum. -/
def isInvalidChunkError (e : GoError) : Bool :=
  match errorsCause e with
  | .errStorage inner =>
      inner == GoError.invalidChecksumChunk || inner == GoError.invalidChecksumChunkenc
  | _ => false

/-- The outcome of one per-fetcher FetchChunks call: the context error state
observed right after the call returned, and the call result. -/
structure FetchOutcome where
  ctxErr : Bool
  result : Except GoError Unit

/-- The error one per-fetcher goroutine sends on errChan (batch.go lines
750-771): nil when the context was cancelled, nil on success, nil when the
error is the recognized checksum class, the error itself otherwise. -/
def goroutineErr (o : FetchOutcome) : Option GoError :=
  if o.ctxErr then none
  else
    match o.result with
    | .ok _ => none
    | .error e => if isInvalidChunkError e then none else some e

/-- A goroutine reaches its chunk-assignment block only when the context was
live and FetchChunks succeeded. -/
def fetchSucceeded (o : FetchOutcome) : Bool :=
  !o.ctxErr &&
    (match o.result with
     | .ok _ => true
     | .error _ => false)

/-- Appending a chunk to its fetcher group in an association list, preserving
first-appearance order of fetchers. -/
def addToFetcherGroup (f : Nat) (c : LazyChunk) :
    List (Nat × List LazyChunk) → List (Nat × List LazyChunk)
  | [] => [(f, [c])]
  | (g, l) :: rest =>
      if g = f then (g, l ++ [c]) :: rest else (g, l) :: addToFetcherGroup f c rest

/-- chksByFetcher (batch.go lines 727-733): group the chunk references whose
payload is still absent by owning fetcher; already-loaded references join no
group. -/
def chksByFetcher (chunks : List LazyChunk) : List (Nat × List LazyChunk) :=
  chunks.foldl
    (fun m c => if c.Chunk.Data = none then addToFetcherGroup c.Fetcher c m else m) []

/-- Last-non-nil-wins error aggregation (batch.go lines 775-780). -/
def aggregateErrs (errs : List (Option GoError)) : Option GoError :=
  errs.foldl
    (fun acc e =>
      match e with
      | some x => some x
      | none => acc) none

/-- fetchLazyChunks (batch.go lines 715-792).  Group the not-yet-loaded chunk
references by fetcher, run one bulk fetch per group (its outcome given by the
environment), aggregate the per-goroutine errors last-non-nil-wins, and on a
nil aggregate mark every reference with a loaded payload valid.  The list
order of chksByFetcher stands for the errChan arrival order. -/
def fetchLazyChunks (env : Nat → FetchOutcome) (chunks : List LazyChunk) :
    Except GoError (List LazyChunk) :=
  let groups := chksByFetcher chunks
  if groups.isEmpty then Except.ok chunks
  else
    match aggregateErrs (groups.map (fun p => goroutineErr (env p.1))) with
    | some e => Except.error e
    | none =>
        Except.ok
          (chunks.map (fun c =>
            let c2 :=
              if c.Chunk.Data = none ∧ fetchSucceeded (env c.Fetcher) = true then
                { c with Chunk := { c.Chunk with Data := some 0 } }
              else c
            if c2.Chunk.Data = none then c2 else { c2 with IsValid := true }))

/-- Projection used to state error results. -/
def exceptErr {α : Type} : Except GoError α → Option GoError
  | .error e => some e
  | .ok _ => none

/-- A fetch outcome the step tolerates: cancelled context, success, or the
recognized checksum-mismatch class. -/
def fetchAccepted (o : FetchOutcome) : Bool :=
  o.ctxErr ||
    (match o.result with
     | .ok _ => true
     | .error e => isInvalidChunkError e)

instance : IsTotal LazyChunk (fun a b => a.Chunk.From ≤ b.Chunk.From) :=
  ⟨fun a b => le_total a.Chunk.From b.Chunk.From⟩

instance : IsTrans LazyChunk (fun a b => a.Chunk.From ≤ b.Chunk.From) :=
  ⟨fun _ _ _ hab hbc => le_trans hab hbc⟩

instance : IsTotal LazyChunk (fun a b => b.Chunk.Through ≤ a.Chunk.Through) :=
  ⟨fun a b => (le_total b.Chunk.Through a.Chunk.Through)⟩

instance : IsTrans LazyChunk (fun a b => b.Chunk.Through ≤ a.Chunk.Through) :=
  ⟨fun _ _ _ hab hbc => le_trans hbc hab⟩

/-- Placeholder chunk for the (never taken) last-of-empty-list lookup. -/
def defaultLazyChunk : LazyChunk := ⟨⟨0, 0, 0, [], none⟩, 0, false⟩

/-- One scan of the outer loop of partitionOverlappingChunks (batch.go lines
839-846): append the chunk to the first sequence whose last element ends
strictly before the chunk starts; none when every sequence overlaps. -/
def placeChunk (c : LazyChunk) : List (List LazyChunk) → Option (List (List LazyChunk))
  | [] => none
  | cs :: rest =>
      if (cs.getLastD defaultLazyChunk).Chunk.Through < c.Chunk.From then
        some ((cs ++ [c]) :: rest)
      else
        match placeChunk c rest with
        | some rest2 => some (cs :: rest2)
        | none => none

/-- One iteration of the outer loop of partitionOverlappingChunks: place the
chunk, or start a new sequence at the end. -/
def partitionStep (css : List (List LazyChunk)) (c : LazyChunk) : List (List LazyChunk) :=
  match placeChunk c css with
  | some css2 => css2
  | none => css ++ [[c]]

/-- partitionOverlappingChunks (batch.go lines 832-854): sort one series of
chunk references by start time (the Go sort leaves the order of equal keys
unspecified; a stable sort realizes one admissible order), then greedily
distribute the chunks over non-overlapping sequences. -/
def partitionOverlappingChunks (chunks : List LazyChunk) : List (List LazyChunk) :=
  (chunks.insertionSort (fun a b => a.Chunk.From ≤ b.Chunk.From)).foldl
    partitionStep []

/-- Appending a chunk to its fingerprint group in an association list. -/
def addToFpGroup (fp : Nat) (c : LazyChunk) :
    List (Nat × List LazyChunk) → List (Nat × List LazyChunk)
  | [] => [(fp, [c])]
  | (g, l) :: rest =>
      if g = fp then (g, l ++ [c]) :: rest else (g, l) :: addToFpGroup fp c rest

/-- chunksByFp grouping inside partitionBySeriesChunks (batch.go lines
816-820). -/
def chunksByFp (chunks : List LazyChunk) : List (Nat × List LazyChunk) :=
  chunks.foldl (fun m c => addToFpGroup c.Chunk.Fingerprint c m) []

/-- partitionBySeriesChunks (batch.go lines 815-828). -/
def partitionBySeriesChunks (chunks : List LazyChunk) :
    List (Nat × List (List LazyChunk)) :=
  (chunksByFp chunks).map (fun p => (p.1, partitionOverlappingChunks p.2))

/-- The label set of the first chunk of the first sequence of one series,
as read by filterSeriesByMatchers (chunks[0][0].Chunk.Metric); the fallback
value is never reached on maps produced by partitionBySeriesChunks. -/
def firstChunkMetric (groups : List (List LazyChunk)) : List (String × String) :=
  match groups with
  | (c :: _) :: _ => c.Chunk.Metric
  | _ => []

/-- The removal test of filterSeriesByMatchers (batch.go lines 697-709): some
matcher rejects the first loaded chunk of the series, or the optional
content filterer flags its label set. -/
def seriesFails (matchers : List Matcher)
    (filterer : Option (List (String × String) → Bool))
    (groups : List (List LazyChunk)) : Bool :=
  matchers.any (fun m => !(m.Matches (labelsGet (firstChunkMetric groups) m.Name))) ||
    (match filterer with
     | some f => f (firstChunkMetric groups)
     | none => false)

/-- Total chunk-reference count of one series entry (the filteredChks
accumulation of batch.go lines 693-695). -/
def totalChunksOfSeries (groups : List (List LazyChunk)) : Nat :=
  (groups.map List.length).sum

/-- filterSeriesByMatchers (batch.go lines 681-713): drop the failing series
and count the discarded series and chunk references.  The returned pair of
numbers is what the function adds to the discarded-series and
discarded-chunks counters of the metrics sink. -/
def filterSeriesByMatchers (matchers : List Matcher)
    (filterer : Option (List (String × String) → Bool)) :
    List (Nat × List (List LazyChunk)) →
      List (Nat × List (List LazyChunk)) × Nat × Nat
  | [] => ([], 0, 0)
  | (fp, groups) :: rest =>
      let r := filterSeriesByMatchers matchers filterer rest
      if seriesFails matchers filterer groups then
        (r.1, r.2.1 + 1, r.2.2 + totalChunksOfSeries groups)
      else ((fp, groups) :: r.1, r.2.1, r.2.2)

/-- The allChunks collection of fetchChunkBySeries (batch.go lines 662-667):
every chunk reference of every surviving series. -/
def allChunksList (m : List (Nat × List (List LazyChunk))) : List LazyChunk :=
  m.flatMap (fun e => e.2.flatten)

/-- The toLoad collection of loadFirstChunks (batch.go lines 802-813): the
first chunk of every non-empty sequence of every series. -/
def firstChunksToLoad (m : List (Nat × List (List LazyChunk))) : List LazyChunk :=
  m.flatMap (fun e =>
    e.2.flatMap (fun g =>
      match g with
      | [] => []
      | c :: _ => [c]))

/-- fetchChunkBySeries (batch.go lines 642-679): partition by series, load the
first chunk of every sequence, filter the series by matchers and content
filterer, then load every remaining chunk of the surviving series.  The
in-place payload updates of the two fetch passes are not threaded into the
series map here: they change no grouping, no label set and no error result
used by the theorems below, which only read the error propagation and the
surviving map. -/
def fetchChunkBySeries (env : Nat → FetchOutcome) (matchers : List Matcher)
    (filterer : Option (List (String × String) → Bool)) (chunks : List LazyChunk) :
    Except GoError (List (Nat × List (List LazyChunk))) :=
  let chksBySeries := partitionBySeriesChunks chunks
  match fetchLazyChunks env (firstChunksToLoad chksBySeries) with
  | .error e => Except.error e
  | .ok _ =>
      let filtered := (filterSeriesByMatchers matchers filterer chksBySeries).1
      match fetchLazyChunks env (allChunksList filtered) with
      | .error e => Except.error e
      | .ok _ => Except.ok filtered

/-- Modelled from the spec: the direction-aware overlap test of the
partitioner used to recompute the carry (LazyChunk.IsOverlapping lives in a
file that is not part of the excerpt).  A chunk overlaps the next chunk when
its span reaches the span of the next chunk on the side the query direction
walks into: forward, its end does not precede the start of the next chunk;
backward, its start does not exceed the end of the next chunk. -/
def isOverlapping (c withC : LazyChunk) (dir : Direction) : Bool :=
  match dir with
  | .BACKWARD => decide (c.Chunk.From ≤ withC.Chunk.Through)
  | .FORWARD => decide (withC.Chunk.From ≤ c.Chunk.Through)

/-- Modelled from the spec: the global sort of the chunk set in query
direction (the lazyChunks Less method lives in a file that is not part of the
excerpt) -- ascending by chunk start for forward queries, descending by chunk
end for backward queries. -/
def sortLazyChunks (dir : Direction) (chunks : List LazyChunk) : List LazyChunk :=
  match dir with
  | .FORWARD => chunks.insertionSort (fun a b => a.Chunk.From ≤ b.Chunk.From)
  | .BACKWARD => chunks.insertionSort (fun a b => b.Chunk.Through ≤ a.Chunk.Through)

/-- The mutable state of a batchChunkIterator that nextBatch reads and
writes: the remaining sorted chunk set, the carry, and the fixed query
parameters. -/
structure BatchIterState where
  chunks : List LazyChunk
  batchSize : Nat
  lastOverlapping : List LazyChunk
  matchers : List Matcher
  chunkFilterer : Option (List (String × String) → Bool)
  start : Int
  endT : Int
  direction : Direction

/-- The values live at the exit of the pop loop of nextBatch. -/
structure LoopOut where
  From : Int
  Through : Int
  batch : List LazyChunk
  nextChunk : Option LazyChunk
  remaining : List LazyChunk
deriving DecidableEq, Repr

/-- How the pop loop of nextBatch ends: it never ends when the batch size is
zero and chunks remain (the Go loop then spins forever), it returns nil on
the forward start-of-batch-equals-query-end check, or it falls through with
the computed values. -/
inductive LoopRes where
  | diverge : LoopRes
  | nilBatch : List LazyChunk → LoopRes
  | out : LoopOut → LoopRes
deriving DecidableEq, Repr

/-- The pop loop of nextBatch (batch.go lines 184-273), one recursive step per
Go iteration.  The fuel argument only bounds the iteration count so that the
definition is total; nextBatchPlan passes enough fuel for every batch size of
at least one, and a zero batch size yields the diverge marker faithfully to
the Go loop never terminating. -/
def nextBatchLoop (bs : Nat) (dir : Direction) (start endT : Int)
    (headChunk : LazyChunk) (carry : List LazyChunk) :
    Nat → List LazyChunk → Int → Int → List LazyChunk → Option LazyChunk → Bool → LoopRes
  | _, [], Fr, Th, batch, nc, _ => .out ⟨Fr, Th, batch, nc, []⟩
  | 0, _ :: _, _, _, _, _, _ => .diverge
  | fuel + 1, c :: cs, Fr, Th, batch, nc, io =>
      let chunks0 := c :: cs
      let batch1 := if io = false ∧ dir = .FORWARD then batch ++ carry else batch
      let popped := chunks0.take bs
      let rest := chunks0.drop bs
      let batch2 := batch1 ++ popped
      let batch3 := if io = false ∧ dir = .BACKWARD then batch2 ++ carry else batch2
      let nc2 : Option LazyChunk :=
        match rest with
        | [] => nc
        | c2 :: _ => some c2
      let Fr2 : Int :=
        match rest, dir with
        | c2 :: _, .BACKWARD =>
            let f := unixNano c2.Chunk.Through
            if f = start then f else f + 1
        | _, _ => Fr
      let Th2 : Int :=
        match rest, dir with
        | c2 :: _, .FORWARD => unixNano c2.Chunk.From
        | _, _ => Th
      match dir with
      | .BACKWARD =>
          let t0 := unixNano headChunk.Chunk.Through
          let t1 := if endT < t0 then endT else t0
          let Th3 := if t1 = endT then t1 else t1 + 1
          if 0 < Th3 - Fr2 then .out ⟨Fr2, Th3, batch3, nc2, rest⟩
          else nextBatchLoop bs dir start endT headChunk carry fuel rest Fr2 Th3 batch3 nc2 true
      | .FORWARD =>
          let f0 := unixNano headChunk.Chunk.From
          if f0 = endT ∧ endT ≠ start then .nilBatch rest
          else
            let Fr3 := if f0 < start then start else f0
            if 0 < Th2 - Fr3 then .out ⟨Fr3, Th2, batch3, nc2, rest⟩
            else nextBatchLoop bs dir start endT headChunk carry fuel rest Fr3 Th2 batch3 nc2 true

/-- The planning result of one nextBatch call: the window bounds after the
bound-reset fallback, the popped batch, the carry recomputation and the new
remaining set (batch.go lines 167-293, everything up to the fetch). -/
structure PlanOut where
  From : Int
  Through : Int
  batch : List LazyChunk
  nextChunk : Option LazyChunk
  lastOverlapping : List LazyChunk
  remaining : List LazyChunk
deriving DecidableEq, Repr

inductive PlanRes where
  | diverge : PlanRes
  | nilBatch : List LazyChunk → List LazyChunk → PlanRes
  | out : PlanOut → PlanRes
deriving DecidableEq, Repr

/-- The pure planning part of nextBatch.  none is the Peek-of-empty panic,
never reached because the production loop only calls nextBatch on a non-empty
chunk set.  The nilBatch case carries the popped chunk set and the untouched
carry, since the Go early return has already consumed the pop. -/
def nextBatchPlan (st : BatchIterState) : Option PlanRes :=
  match st.chunks with
  | [] => none
  | hc :: _ =>
      match nextBatchLoop st.batchSize st.direction st.start st.endT hc
          st.lastOverlapping st.chunks.length st.chunks st.start st.endT [] none false with
      | .diverge => some .diverge
      | .nilBatch rest => some (.nilBatch rest st.lastOverlapping)
      | .out o =>
          let Fr := if o.Through - o.From ≤ 0 ∧ st.direction = .BACKWARD then st.start else o.From
          let Th := if o.Through - o.From ≤ 0 ∧ st.direction = .FORWARD then st.endT else o.Through
          let carry2 :=
            match o.remaining, o.nextChunk with
            | [], _ => st.lastOverlapping
            | _ :: _, some nc => o.batch.filter (fun c => isOverlapping c nc st.direction)
            | _ :: _, none => []
          some (.out ⟨Fr, Th, o.batch, o.nextChunk, carry2, o.remaining⟩)

/-- chunkBatch (batch.go lines 308-314), fingerprint keys as an association
list. -/
structure ChunkBatch where
  chunksBySeries : List (Nat × List (List LazyChunk))
  err : Option GoError
  From : Int
  Through : Int
  nextChunk : Option LazyChunk
deriving DecidableEq, Repr

/-- One full nextBatch call: plan, then fetch; a fetch error produces a batch
holding only the error (zero-valued bounds), exactly like the Go early
return.  Besides the emitted batch the new chunks and carry state are
returned.  The diverge and empty-chunks cases return placeholder states; both
are unreachable from the production loop with a positive batch size. -/
def nextBatchFull (env : Nat → FetchOutcome) (st : BatchIterState) :
    Option ChunkBatch × List LazyChunk × List LazyChunk :=
  match nextBatchPlan st with
  | some (.nilBatch rest carry) => (none, rest, carry)
  | some (.out o) =>
      match fetchChunkBySeries env st.matchers st.chunkFilterer o.batch with
      | .error e => (some ⟨[], some e, 0, 0, none⟩, o.remaining, o.lastOverlapping)
      | .ok m => (some ⟨m, none, o.From, o.Through, o.nextChunk⟩, o.remaining, o.lastOverlapping)
  | some .diverge => (none, st.chunks, st.lastOverlapping)
  | none => (none, st.chunks, st.lastOverlapping)

/-- The production loop of the planner (batch.go lines 147-160) with a
never-cancelled context: while chunks remain, emit what nextBatch returns
(a nil batch is sent on the channel like any other value) and continue.  The
fuel bounds the number of emissions so that the definition is total; any fuel
at least the chunk count is enough when the batch size is positive. -/
def stepState (env : Nat → FetchOutcome) (st : BatchIterState) : BatchIterState :=
  { st with
    chunks := (nextBatchFull env st).2.1
    lastOverlapping := (nextBatchFull env st).2.2 }

def loopEmit (env : Nat → FetchOutcome) (st : BatchIterState) :
    Nat → List (Option ChunkBatch)
  | 0 => []
  | fuel + 1 =>
      if st.chunks.isEmpty then []
      else (nextBatchFull env st).1 :: loopEmit env (stepState env st) fuel

/-- labels.MetricName, stripped by newBatchChunkIterator. -/
def metricNameLabel : String := "__name__"

/-- astmapper.ShardLabel, stripped by newBatchChunkIterator. -/
def shardLabel : String := "__cortex_shard__"

/-- newBatchChunkIterator (batch.go lines 107-137): strip the reserved
matchers, sort the chunk set in query direction, start with an empty carry. -/
def newBatchChunkIterator (chunks : List LazyChunk) (batchSize : Nat)
    (dir : Direction) (start endT : Int) (matchers : List Matcher)
    (filterer : Option (List (String × String) → Bool)) : BatchIterState :=
  { chunks := sortLazyChunks dir chunks
    batchSize := batchSize
    lastOverlapping := []
    matchers := removeMatchersByName matchers [metricNameLabel, shardLabel]
    chunkFilterer := filterer
    start := start
    endT := endT
    direction := dir }

/-- sampleBatchIterator state: the underlying planner plus the extractor
handles. -/
structure SampleBatchIter where
  batchChunkIterator : BatchIterState
  extractors : List Nat

/-- newSampleBatchIterator (batch.go lines 472-501): the sample variant always
constructs its planner with logproto.FORWARD; no direction parameter exists. -/
def newSampleBatchIterator (chunks : List LazyChunk) (batchSize : Nat)
    (matchers : List Matcher) (start endT : Int)
    (filterer : Option (List (String × String) → Bool)) (extractors : List Nat) :
    SampleBatchIter :=
  { batchChunkIterator := newBatchChunkIterator chunks batchSize .FORWARD start endT matchers filterer
    extractors := extractors }

/-- The forward window bounds exactly as the specification words them: from is
the head chunk start clamped to not precede the query start, none (no window)
when the head chunk start equals the query end unless start equals end;
through is the next chunk start when a next chunk remains, else the query
end. -/
def specForwardBounds (start endT : Int) (hc : LazyChunk) (next : Option LazyChunk) :
    Option (Int × Int) :=
  let f := unixNano hc.Chunk.From
  if f = endT ∧ endT ≠ start then none
  else
    some (max start f,
      match next with
      | some nc => unixNano nc.Chunk.From
      | none => endT)

/-- The backward window bounds exactly as the specification words them:
through is the head chunk end clamped to the query end, shifted by one
nanosecond unless it equals the query end; from is the next chunk end with
the same shift rule against the query start when a next chunk remains, else
the query start. -/
def specBackwardBounds (start endT : Int) (hc : LazyChunk) (next : Option LazyChunk) :
    Int × Int :=
  let t0 := min (unixNano hc.Chunk.Through) endT
  let through := if t0 = endT then t0 else t0 + 1
  let fr :=
    match next with
    | some nc =>
        let u := unixNano nc.Chunk.Through
        if u = start then u else u + 1
    | none => start
  (fr, through)

/-! Concrete instances used by witnesses and counterexamples. -/

/-- A storage environment where every fetch succeeds. -/
def envOkW : Nat → FetchOutcome := fun _ => ⟨false, Except.ok ()⟩

/-- A storage environment where every fetch fails with a fatal error. -/
def envBadW : Nat → FetchOutcome := fun _ => ⟨false, Except.error (GoError.other 7)⟩

/-- A storage environment whose fetcher 0 fails with code 1 and every other
fetcher fails with code 2. -/
def envTwoErrs : Nat → FetchOutcome := fun f =>
  if f = 0 then ⟨false, Except.error (GoError.other 1)⟩
  else ⟨false, Except.error (GoError.other 2)⟩

/-- An already-loaded chunk reference. -/
def wLoaded : LazyChunk := ⟨⟨0, 1, 1, [], some 5⟩, 0, false⟩

/-- A not-yet-loaded chunk reference on fetcher 0. -/
def wUnloaded : LazyChunk := ⟨⟨2, 3, 1, [], none⟩, 0, false⟩

/-- A not-yet-loaded chunk reference on fetcher 1. -/
def wUnloaded1 : LazyChunk := ⟨⟨4, 5, 1, [], none⟩, 1, false⟩

/-- Keep fingerprint 1 with an app=x label, drop fingerprint 2 with app=y. -/
def matcherAppX : Matcher := ⟨"app", fun v => v == "x"⟩

def chunkAppX : LazyChunk := ⟨⟨0, 1, 1, [("app", "x")], some 0⟩, 0, false⟩

def chunkAppY : LazyChunk := ⟨⟨0, 1, 2, [("app", "y")], some 0⟩, 0, false⟩

def seriesMapW : List (Nat × List (List LazyChunk)) :=
  [(1, [[chunkAppX]]), (2, [[chunkAppY]])]


/-- Two disjoint chunks used by the interval-partitioner witness. -/
def partChunkA : LazyChunk := ⟨⟨0, 1, 3, [], none⟩, 0, false⟩

def partChunkB : LazyChunk := ⟨⟨5, 6, 3, [], none⟩, 0, false⟩

/-- The forward from bound of one loop iteration (batch.go lines 251-265):
the head chunk start clamped to not precede the query start. -/
def clampFromStart (start f : Int) : Int :=
  if f < start then start else f

/-- The backward through bound of one loop iteration (batch.go lines
235-248): the head chunk end clamped to the query end, shifted by one
nanosecond unless it equals the query end. -/
def clampShiftThrough (endT t0 : Int) : Int :=
  let t1 := if endT < t0 then endT else t0
  if t1 = endT then t1 else t1 + 1

/-- The backward from bound taken from the next chunk (batch.go lines
202-211): shifted by one nanosecond unless it equals the query start. -/
def shiftFromStart (start u : Int) : Int :=
  if u = start then u else u + 1

/-- Extract the popped batch of a planning result. -/
def planBatch : Option PlanRes → Option (List LazyChunk)
  | some (.out p) => some p.batch
  | _ => none

/-- Chunk spanning 0ms-2ms. -/
def bpChunkA : LazyChunk := ⟨⟨0, 2, 1, [], none⟩, 0, false⟩

/-- Chunk spanning 1ms-3ms, overlapping bpChunkA. -/
def bpChunkB : LazyChunk := ⟨⟨1, 3, 1, [], none⟩, 0, false⟩

/-- Chunk whose span is the single instant 0. -/
def outChunk : LazyChunk := ⟨⟨0, 0, 1, [], none⟩, 0, false⟩

/-- Forward planner state over two overlapping chunks, batch size one. -/
def stC2W : BatchIterState :=
  ⟨[bpChunkA, bpChunkB], 1, [], [], none, 0, 10000000000, .FORWARD⟩

/-- The planning result of stC2W. -/
def pC2W : PlanOut :=
  ⟨0, 1000000, [bpChunkA], some bpChunkB, [bpChunkA], [bpChunkB]⟩

/-- Forward planner state with a non-empty carry. -/
def stC3X : BatchIterState :=
  ⟨[bpChunkB], 1, [bpChunkA], [], none, 0, 10000000000, .FORWARD⟩

/-- The planning result of stC3X: the carry sits in front of the popped
chunk. -/
def pC3X : PlanOut :=
  ⟨1000000, 10000000000, [bpChunkA, bpChunkB], none, [bpChunkA], []⟩

/-- Forward planner state over a query ending at 10 nanoseconds while the
second chunk starts at one millisecond: the emitted window overshoots the
query end. -/
def stC1X : BatchIterState :=
  ⟨[outChunk, bpChunkB], 1, [], [], none, 0, 10, .FORWARD⟩

/-- Forward planner state whose chunk lies inside the query range. -/
def stC1W : BatchIterState :=
  ⟨[bpChunkA], 1, [], [], none, 0, 10000000000, .FORWARD⟩

/-- The batch stC1W emits under the all-success environment. -/
def bC1W : ChunkBatch := ⟨[(1, [[bpChunkA]])], none, 0, 10000000000, none⟩

/-! Helper lemmas and claim theorems. -/

theorem addToFetcherGroup_mem (f : Nat) (c : LazyChunk)
    (m : List (Nat × List LazyChunk)) :
    ∀ p ∈ addToFetcherGroup f c m, ∀ x ∈ p.2,
      (∃ q ∈ m, x ∈ q.2) ∨ x = c := by
  induction m with
  | nil =>
      intro p hp x hx
      simp only [addToFetcherGroup, List.mem_singleton] at hp
      subst hp
      simp only [List.mem_singleton] at hx
      exact Or.inr hx
  | cons q rest ih =>
      intro p hp x hx
      obtain ⟨g, l⟩ := q
      simp only [addToFetcherGroup] at hp
      by_cases hg : g = f
      · simp only [if_pos hg, List.mem_cons] at hp
        rcases hp with hp | hp
        · subst hp
          simp only [List.mem_append, List.mem_singleton] at hx
          rcases hx with hx | hx
          · exact Or.inl ⟨(g, l), List.mem_cons_self _ _, hx⟩
          · exact Or.inr hx
        · exact Or.inl ⟨p, List.mem_cons_of_mem _ hp, hx⟩
      · simp only [if_neg hg, List.mem_cons] at hp
        rcases hp with hp | hp
        · subst hp
          exact Or.inl ⟨(g, l), List.mem_cons_self _ _, hx⟩
        · rcases ih p hp x hx with ⟨q2, hq2, hxq⟩ | hxc
          · exact Or.inl ⟨q2, List.mem_cons_of_mem _ hq2, hxq⟩
          · exact Or.inr hxc

theorem chksByFetcher_fold_inv (P : LazyChunk → Prop) (l : List LazyChunk) :
    ∀ (acc : List (Nat × List LazyChunk)),
      (∀ p ∈ acc, ∀ x ∈ p.2, P x) →
      (∀ c ∈ l, c.Chunk.Data = none → P c) →
      ∀ p ∈ l.foldl
          (fun m c => if c.Chunk.Data = none then addToFetcherGroup c.Fetcher c m else m)
          acc,
        ∀ x ∈ p.2, P x := by
  induction l with
  | nil =>
      intro acc hacc _ p hp x hx
      exact hacc p hp x hx
  | cons c cs ih =>
      intro acc hacc hl p hp x hx
      simp only [List.foldl_cons] at hp
      by_cases hd : c.Chunk.Data = none
      · rw [if_pos hd] at hp
        refine ih _ ?_ (fun y hy hyd => hl y (List.mem_cons_of_mem _ hy) hyd) p hp x hx
        intro q hq y hy
        rcases addToFetcherGroup_mem c.Fetcher c acc q hq y hy with ⟨q2, hq2, hyq⟩ | hyc
        · exact hacc q2 hq2 y hyq
        · subst hyc
          exact hl y (List.mem_cons_self _ _) hd
      · rw [if_neg hd] at hp
        exact ih _ hacc (fun y hy hyd => hl y (List.mem_cons_of_mem _ hy) hyd) p hp x hx

/-- Claim C9: fetchLazyChunks places a chunk reference into a per-fetcher
fetch group only if its payload is absent: every chunk of every group built
by chksByFetcher has a nil Data field (and comes from the input), so a chunk
already loaded in an earlier window is never fetched again. -/
theorem c9_fetch_groups_only_unloaded (chunks : List LazyChunk) :
    ∀ p ∈ chksByFetcher chunks, ∀ c ∈ p.2, c.Chunk.Data = none ∧ c ∈ chunks := by
  intro p hp c hc
  exact chksByFetcher_fold_inv (fun x => x.Chunk.Data = none ∧ x ∈ chunks) chunks []
    (by intro q hq; cases hq) (fun y hy hyd => ⟨hyd, hy⟩) p hp c hc

/-- Claim C9 witness: the group of fetcher 0 built from a loaded and an
unloaded chunk contains the unloaded chunk, whose payload the theorem shows
absent. -/
theorem c9_witness :
    wUnloaded.Chunk.Data = none ∧ wUnloaded ∈ [wLoaded, wUnloaded] :=
  c9_fetch_groups_only_unloaded [wLoaded, wUnloaded] (0, [wUnloaded]) (by decide)
    wUnloaded (by decide)

/-- Claim C10: newSampleBatchIterator always constructs its underlying
batchChunkIterator with the FORWARD direction; the sample variant has no
direction parameter. -/
theorem c10_sample_iterator_forward (chunks : List LazyChunk) (batchSize : Nat)
    (matchers : List Matcher) (start endT : Int)
    (filterer : Option (List (String × String) → Bool)) (extractors : List Nat) :
    (newSampleBatchIterator chunks batchSize matchers start endT filterer
        extractors).batchChunkIterator.direction = Direction.FORWARD := rfl

theorem goroutineErr_none_iff (o : FetchOutcome) :
    goroutineErr o = none ↔ fetchAccepted o = true := by
  unfold goroutineErr fetchAccepted
  by_cases hc : o.ctxErr
  · simp [hc]
  · simp only [hc, if_false, Bool.false_or]
    cases hr : o.result with
    | ok u => simp
    | error e =>
        by_cases hi : isInvalidChunkError e = true
        · simp [hi]
        · simp [hi, Bool.of_not_eq_true hi]

theorem aggregate_fold_none_iff (l : List (Option GoError)) :
    ∀ acc, l.foldl
        (fun acc e =>
          match e with
          | some x => some x
          | none => acc) acc = none ↔ (acc = none ∧ ∀ e ∈ l, e = none) := by
  induction l with
  | nil => intro acc; simp
  | cons x xs ih =>
      intro acc
      cases x with
      | none =>
          simp only [List.foldl_cons, ih]
          constructor
          · rintro ⟨h1, h2⟩
            refine ⟨h1, ?_⟩
            intro e he
            rcases List.mem_cons.1 he with h | h
            · exact h
            · exact h2 e h
          · rintro ⟨h1, h2⟩
            exact ⟨h1, fun e he => h2 e (List.mem_cons_of_mem _ he)⟩
      | some y =>
          simp only [List.foldl_cons, ih]
          constructor
          · rintro ⟨h1, _⟩
            cases h1
          · rintro ⟨_, h2⟩
            have := h2 (some y) (List.mem_cons_self _ _)
            cases this

theorem aggregateErrs_none_iff (l : List (Option GoError)) :
    aggregateErrs l = none ↔ ∀ e ∈ l, e = none := by
  unfold aggregateErrs
  rw [aggregate_fold_none_iff]
  simp

theorem aggregate_fold_last {G : Type} (f : G → Option GoError) (e : GoError) :
    ∀ (gs : List G) (acc : Option GoError),
      (gs.map f).foldl
          (fun acc x =>
            match x with
            | some y => some y
            | none => acc) acc = some e →
        (∃ pre p post, gs = pre ++ p :: post ∧ f p = some e ∧ ∀ q ∈ post, f q = none) ∨
          (acc = some e ∧ ∀ q ∈ gs, f q = none) := by
  intro gs
  induction gs with
  | nil =>
      intro acc h
      simp only [List.map_nil, List.foldl_nil] at h
      exact Or.inr ⟨h, by intro q hq; cases hq⟩
  | cons g rest ih =>
      intro acc h
      simp only [List.map_cons, List.foldl_cons] at h
      rcases ih _ h with ⟨pre, p, post, hsplit, hp, hpost⟩ | ⟨hacc, hrest⟩
      · exact Or.inl ⟨g :: pre, p, post, by rw [hsplit]; rfl, hp, hpost⟩
      · cases hf : f g with
        | some y =>
            rw [hf] at hacc
            cases hacc
            exact Or.inl ⟨[], g, rest, rfl, hf, hrest⟩
        | none =>
            rw [hf] at hacc
            refine Or.inr ⟨hacc, ?_⟩
            intro q hq
            rcases List.mem_cons.1 hq with hq | hq
            · subst hq; exact hf
            · exact hrest q hq

/-- Claim C5 (amended): fetchLazyChunks returns a nil error exactly when every
per-fetcher bulk fetch either succeeds, fails with the recognized
checksum-mismatch error class, or observes an already-canceled context; any
other storage fetch failure is returned as the fatal error of the step, and
when several per-fetcher results carry fatal errors the LAST non-nil error in
result-arrival order wins (the Go code overwrites lastErr on every non-nil
receive). -/
theorem c5_fetch_error_aggregation (env : Nat → FetchOutcome) (chunks : List LazyChunk) :
    ((fetchLazyChunks env chunks).isOk = true ↔
      ∀ p ∈ chksByFetcher chunks, fetchAccepted (env p.1) = true) ∧
    (∀ e, exceptErr (fetchLazyChunks env chunks) = some e →
      ∃ pre p post, chksByFetcher chunks = pre ++ p :: post ∧
        goroutineErr (env p.1) = some e ∧
        ∀ q ∈ post, goroutineErr (env q.1) = none) := by
  unfold fetchLazyChunks
  by_cases hg : (chksByFetcher chunks).isEmpty = true
  · rw [if_pos hg]
    have hnil : chksByFetcher chunks = [] := List.isEmpty_iff.1 hg
    constructor
    · simp only [Except.isOk, hnil]
      constructor
      · intro _ p hp; cases hp
      · intro _; rfl
    · intro e he
      simp only [exceptErr] at he
      cases he
  · rw [if_neg hg]
    cases hagg : aggregateErrs ((chksByFetcher chunks).map fun p => goroutineErr (env p.1)) with
    | none =>
        constructor
        · simp only [Except.isOk]
          constructor
          · intro _ p hp
            have hall := (aggregateErrs_none_iff _).1 hagg
            have := hall (goroutineErr (env p.1)) (List.mem_map_of_mem _ hp)
            exact (goroutineErr_none_iff _).1 this
          · intro _; rfl
        · intro e he
          simp only [exceptErr] at he
          cases he
    | some x =>
        constructor
        · simp only [Except.isOk]
          constructor
          · intro h; cases h
          · intro hall
            have : aggregateErrs ((chksByFetcher chunks).map fun p => goroutineErr (env p.1)) = none := by
              rw [aggregateErrs_none_iff]
              intro e he
              rcases List.mem_map.1 he with ⟨p, hp, hpe⟩
              rw [← hpe]
              exact (goroutineErr_none_iff _).2 (hall p hp)
            rw [this] at hagg
            cases hagg
        · intro e he
          simp only [exceptErr] at he
          have hx : x = e := by injection he
          rw [hx] at hagg
          unfold aggregateErrs at hagg
          rcases aggregate_fold_last (fun p => goroutineErr (env p.1)) e
              (chksByFetcher chunks) none hagg with h | ⟨h2, _⟩
          · exact h
          · cases h2

/-- Claim C5 witness: on a single unloaded chunk with an all-success
environment the function reports success, and the acceptance test of the
amended theorem holds for every group. -/
theorem c5_witness :
    (fetchLazyChunks envOkW [wUnloaded]).isOk = true :=
  (c5_fetch_error_aggregation envOkW [wUnloaded]).1.mpr (by decide)

/-- Claim C5 counterexample: with two fetchers both failing fatally, the
per-fetcher results arrive in fetcher order 0 then 1, the FIRST non-nil error
is code 1, but fetchLazyChunks returns code 2 -- the last one -- so
first-non-nil-error-wins aggregation is false. -/
theorem c5_counterexample :
    exceptErr (fetchLazyChunks envTwoErrs [wUnloaded, wUnloaded1]) =
        some (GoError.other 2) ∧
    (chksByFetcher [wUnloaded, wUnloaded1]).map Prod.fst = [0, 1] ∧
    goroutineErr (envTwoErrs 0) = some (GoError.other 1) ∧
    GoError.other 2 ≠ GoError.other 1 := by decide

theorem filterSeries_fst (matchers : List Matcher)
    (filterer : Option (List (String × String) → Bool))
    (l : List (Nat × List (List LazyChunk))) :
    (filterSeriesByMatchers matchers filterer l).1 =
      l.filter (fun e => !seriesFails matchers filterer e.2) := by
  induction l with
  | nil => rfl
  | cons p rest ih =>
      obtain ⟨fp, groups⟩ := p
      by_cases h : seriesFails matchers filterer groups = true
      · simp [filterSeriesByMatchers, ih, List.filter_cons, h]
      · simp [filterSeriesByMatchers, ih, List.filter_cons, h]

theorem filterSeries_series_count (matchers : List Matcher)
    (filterer : Option (List (String × String) → Bool))
    (l : List (Nat × List (List LazyChunk))) :
    (filterSeriesByMatchers matchers filterer l).2.1 =
      (l.filter (fun e => seriesFails matchers filterer e.2)).length := by
  induction l with
  | nil => rfl
  | cons p rest ih =>
      obtain ⟨fp, groups⟩ := p
      by_cases h : seriesFails matchers filterer groups = true
      · simp [filterSeriesByMatchers, ih, List.filter_cons, h]
      · simp [filterSeriesByMatchers, ih, List.filter_cons, h]

theorem filterSeries_chunk_count (matchers : List Matcher)
    (filterer : Option (List (String × String) → Bool))
    (l : List (Nat × List (List LazyChunk))) :
    (filterSeriesByMatchers matchers filterer l).2.2 =
      ((l.filter (fun e => seriesFails matchers filterer e.2)).map
        (fun e => totalChunksOfSeries e.2)).sum := by
  induction l with
  | nil => rfl
  | cons p rest ih =>
      obtain ⟨fp, groups⟩ := p
      by_cases h : seriesFails matchers filterer groups = true
      · simp only [filterSeriesByMatchers, ih, List.filter_cons, h, if_true,
          List.map_cons, List.sum_cons]
        omega
      · simp [filterSeriesByMatchers, ih, List.filter_cons, h]

/-- Claim C8: filterSeriesByMatchers removes exactly the series whose first
loaded chunk fails a matcher or is flagged by the content filterer (the
surviving map is the filter of the input by that test, every other entry
unchanged in place); the discarded-series counter it reports is the number of
removed series and the discarded-chunks counter the total chunk-reference
count of the removed series; and, when distinct series hold distinct chunk
references, no chunk of a removed series is in the allChunks list handed to
the subsequent bulk fetch. -/
theorem c8_filter_series (matchers : List Matcher)
    (filterer : Option (List (String × String) → Bool))
    (chks : List (Nat × List (List LazyChunk)))
    (hdisj : ∀ e ∈ chks, ∀ e2 ∈ chks,
      seriesFails matchers filterer e.2 = true →
      seriesFails matchers filterer e2.2 = false →
      ∀ c ∈ e.2.flatten, c ∉ e2.2.flatten) :
    (filterSeriesByMatchers matchers filterer chks).1 =
        chks.filter (fun e => !seriesFails matchers filterer e.2) ∧
    (filterSeriesByMatchers matchers filterer chks).2.1 =
        (chks.filter (fun e => seriesFails matchers filterer e.2)).length ∧
    (filterSeriesByMatchers matchers filterer chks).2.2 =
        ((chks.filter (fun e => seriesFails matchers filterer e.2)).map
          (fun e => totalChunksOfSeries e.2)).sum ∧
    ∀ e ∈ chks, seriesFails matchers filterer e.2 = true →
      ∀ c ∈ e.2.flatten,
        c ∉ allChunksList (filterSeriesByMatchers matchers filterer chks).1 := by
  refine ⟨filterSeries_fst matchers filterer chks,
    filterSeries_series_count matchers filterer chks,
    filterSeries_chunk_count matchers filterer chks, ?_⟩
  intro e he hfail c hc hmem
  rw [filterSeries_fst] at hmem
  unfold allChunksList at hmem
  rcases List.mem_flatMap.1 hmem with ⟨e2, he2, hce2⟩
  rcases List.mem_filter.1 he2 with ⟨he2in, he2keep⟩
  have hkeep : seriesFails matchers filterer e2.2 = false := by
    cases h2 : seriesFails matchers filterer e2.2
    · rfl
    · rw [h2] at he2keep; cases he2keep
  exact hdisj e he e2 he2in hfail hkeep c hc hce2

/-- Claim C8 witness: on a two-series map where the matcher app=x rejects the
second series, the theorem applies with the disjointness hypothesis
discharged by evaluation. -/
theorem c8_witness :
    (filterSeriesByMatchers [matcherAppX] none seriesMapW).1 =
        seriesMapW.filter (fun e => !seriesFails [matcherAppX] none e.2) ∧
    (filterSeriesByMatchers [matcherAppX] none seriesMapW).2.1 =
        (seriesMapW.filter (fun e => seriesFails [matcherAppX] none e.2)).length ∧
    (filterSeriesByMatchers [matcherAppX] none seriesMapW).2.2 =
        ((seriesMapW.filter (fun e => seriesFails [matcherAppX] none e.2)).map
          (fun e => totalChunksOfSeries e.2)).sum ∧
    ∀ e ∈ seriesMapW, seriesFails [matcherAppX] none e.2 = true →
      ∀ c ∈ e.2.flatten,
        c ∉ allChunksList (filterSeriesByMatchers [matcherAppX] none seriesMapW).1 :=
  c8_filter_series [matcherAppX] none seriesMapW (by decide)

theorem getLastD_mem (cs : List LazyChunk) (d : LazyChunk) (h : cs ≠ []) :
    cs.getLastD d ∈ cs := by
  rw [List.getLastD_eq_getLast?]
  cases hq : cs.getLast? with
  | none => exact absurd (List.getLast?_eq_none_iff.1 hq) h
  | some a =>
      simp only [Option.getD_some]
      exact List.mem_of_mem_getLast? (by rw [hq]; rfl)

theorem chain'_append_singleton {R : LazyChunk → LazyChunk → Prop}
    (cs : List LazyChunk) (c : LazyChunk) (h : List.Chain' R cs)
    (hlink : R (cs.getLastD defaultLazyChunk) c) : List.Chain' R (cs ++ [c]) := by
  rw [List.chain'_append]
  refine ⟨h, List.chain'_singleton c, ?_⟩
  intro x hx y hy
  simp only [List.head?_cons, Option.mem_def, Option.some.injEq] at hy
  subst hy
  have hx2 : cs.getLastD defaultLazyChunk = x := by
    rw [List.getLastD_eq_getLast?]
    rw [Option.mem_def] at hx
    rw [hx]
    rfl
  rw [← hx2]
  exact hlink

theorem placeChunk_flatten_perm (c : LazyChunk) :
    ∀ {css css2 : List (List LazyChunk)}, placeChunk c css = some css2 →
      css2.flatten.Perm (c :: css.flatten) := by
  intro css
  induction css with
  | nil => intro css2 h; cases h
  | cons cs rest ih =>
      intro css2 h
      unfold placeChunk at h
      by_cases hg : (cs.getLastD defaultLazyChunk).Chunk.Through < c.Chunk.From
      · rw [if_pos hg] at h
        injection h with h
        subst h
        simp only [List.flatten_cons, List.append_assoc, List.singleton_append]
        exact List.perm_middle
      · rw [if_neg hg] at h
        cases hp : placeChunk c rest with
        | none => rw [hp] at h; cases h
        | some rest2 =>
            rw [hp] at h
            injection h with h
            subst h
            simp only [List.flatten_cons]
            exact (List.Perm.append_left cs (ih hp)).trans List.perm_middle

theorem placeChunk_mem (c : LazyChunk) :
    ∀ {css css2 : List (List LazyChunk)}, placeChunk c css = some css2 →
      ∀ cs2 ∈ css2, cs2 ∈ css ∨
        ∃ cs, cs ∈ css ∧ cs2 = cs ++ [c] ∧
          (cs.getLastD defaultLazyChunk).Chunk.Through < c.Chunk.From := by
  intro css
  induction css with
  | nil => intro css2 h; cases h
  | cons cs rest ih =>
      intro css2 h cs2 hcs2
      unfold placeChunk at h
      by_cases hg : (cs.getLastD defaultLazyChunk).Chunk.Through < c.Chunk.From
      · rw [if_pos hg] at h
        injection h with h
        subst h
        rcases List.mem_cons.1 hcs2 with h2 | h2
        · exact Or.inr ⟨cs, List.mem_cons_self _ _, h2, hg⟩
        · exact Or.inl (List.mem_cons_of_mem _ h2)
      · rw [if_neg hg] at h
        cases hp : placeChunk c rest with
        | none => rw [hp] at h; cases h
        | some rest2 =>
            rw [hp] at h
            injection h with h
            subst h
            rcases List.mem_cons.1 hcs2 with h2 | h2
            · exact Or.inl (h2 ▸ List.mem_cons_self _ _)
            · rcases ih hp cs2 h2 with h3 | ⟨cs3, hcs3, he, hgg⟩
              · exact Or.inl (List.mem_cons_of_mem _ h3)
              · exact Or.inr ⟨cs3, List.mem_cons_of_mem _ hcs3, he, hgg⟩

theorem partitionStep_mem (css : List (List LazyChunk)) (c : LazyChunk) :
    ∀ cs2 ∈ partitionStep css c,
      cs2 ∈ css ∨
      (∃ cs, cs ∈ css ∧ cs2 = cs ++ [c] ∧
        (cs.getLastD defaultLazyChunk).Chunk.Through < c.Chunk.From) ∨
      cs2 = [c] := by
  intro cs2 hcs2
  unfold partitionStep at hcs2
  cases hp : placeChunk c css with
  | some css2 =>
      rw [hp] at hcs2
      rcases placeChunk_mem c hp cs2 hcs2 with h | h
      · exact Or.inl h
      · exact Or.inr (Or.inl h)
  | none =>
      rw [hp] at hcs2
      rcases List.mem_append.1 hcs2 with h | h
      · exact Or.inl h
      · simp only [List.mem_singleton] at h
        exact Or.inr (Or.inr h)

theorem partitionStep_flatten_perm (css : List (List LazyChunk)) (c : LazyChunk) :
    (partitionStep css c).flatten.Perm (css.flatten ++ [c]) := by
  unfold partitionStep
  cases hp : placeChunk c css with
  | some css2 =>
      exact (placeChunk_flatten_perm c hp).trans
        (List.perm_append_singleton c css.flatten).symm
  | none =>
      apply List.Perm.of_eq
      simp [List.flatten_append]

theorem partition_fold_inv :
    ∀ (l : List LazyChunk) (css : List (List LazyChunk)),
      List.Pairwise (fun a b => a.Chunk.From ≤ b.Chunk.From) l →
      (∀ cs ∈ css, cs ≠ []) →
      (∀ cs ∈ css, List.Chain' (fun a b => a.Chunk.Through < b.Chunk.From) cs) →
      (∀ cs ∈ css, List.Chain' (fun a b => a.Chunk.From ≤ b.Chunk.From) cs) →
      (∀ cs ∈ css, ∀ x ∈ cs, ∀ y ∈ l, x.Chunk.From ≤ y.Chunk.From) →
      (∀ cs ∈ l.foldl partitionStep css, cs ≠ []) ∧
      (∀ cs ∈ l.foldl partitionStep css,
        List.Chain' (fun a b => a.Chunk.Through < b.Chunk.From) cs) ∧
      (∀ cs ∈ l.foldl partitionStep css,
        List.Chain' (fun a b => a.Chunk.From ≤ b.Chunk.From) cs) ∧
      (l.foldl partitionStep css).flatten.Perm (css.flatten ++ l) := by
  intro l
  induction l with
  | nil =>
      intro css _ h1 h2 h3 _
      exact ⟨h1, h2, h3, by simp⟩
  | cons c rest ih =>
      intro css hsort h1 h2 h3 hcross
      have hhead : ∀ y ∈ rest, c.Chunk.From ≤ y.Chunk.From :=
        (List.pairwise_cons.1 hsort).1
      have hsrest : List.Pairwise (fun a b => a.Chunk.From ≤ b.Chunk.From) rest :=
        (List.pairwise_cons.1 hsort).2
      simp only [List.foldl_cons]
      have h1b : ∀ cs2 ∈ partitionStep css c, cs2 ≠ [] := by
        intro cs2 hcs2
        rcases partitionStep_mem css c cs2 hcs2 with h | ⟨cs, _, he, _⟩ | he
        · exact h1 cs2 h
        · subst he; simp
        · subst he; simp
      have h2b : ∀ cs2 ∈ partitionStep css c,
          List.Chain' (fun a b => a.Chunk.Through < b.Chunk.From) cs2 := by
        intro cs2 hcs2
        rcases partitionStep_mem css c cs2 hcs2 with h | ⟨cs, hcs, he, hg⟩ | he
        · exact h2 cs2 h
        · subst he; exact chain'_append_singleton cs c (h2 cs hcs) hg
        · subst he; exact List.chain'_singleton c
      have h3b : ∀ cs2 ∈ partitionStep css c,
          List.Chain' (fun a b => a.Chunk.From ≤ b.Chunk.From) cs2 := by
        intro cs2 hcs2
        rcases partitionStep_mem css c cs2 hcs2 with h | ⟨cs, hcs, he, _⟩ | he
        · exact h3 cs2 h
        · subst he
          refine chain'_append_singleton cs c (h3 cs hcs) ?_
          exact hcross cs hcs (cs.getLastD defaultLazyChunk)
            (getLastD_mem cs defaultLazyChunk (h1 cs hcs)) c (List.mem_cons_self _ _)
        · subst he; exact List.chain'_singleton c
      have hcrossb : ∀ cs2 ∈ partitionStep css c, ∀ x ∈ cs2, ∀ y ∈ rest,
          x.Chunk.From ≤ y.Chunk.From := by
        intro cs2 hcs2 x hx y hy
        rcases partitionStep_mem css c cs2 hcs2 with h | ⟨cs, hcs, he, _⟩ | he
        · exact hcross cs2 h x hx y (List.mem_cons_of_mem _ hy)
        · subst he
          rcases List.mem_append.1 hx with hx2 | hx2
          · exact hcross cs hcs x hx2 y (List.mem_cons_of_mem _ hy)
          · simp only [List.mem_singleton] at hx2
            subst hx2
            exact hhead y hy
        · subst he
          simp only [List.mem_singleton] at hx
          subst hx
          exact hhead y hy
      obtain ⟨g1, g2, g3, g4⟩ :=
        ih (partitionStep css c) hsrest h1b h2b h3b hcrossb
      refine ⟨g1, g2, g3, ?_⟩
      refine g4.trans ?_
      refine ((partitionStep_flatten_perm css c).append_right rest).trans ?_
      apply List.Perm.of_eq
      simp

/-- Claim C4: partitionOverlappingChunks returns sequences in which
consecutive chunk spans are strictly non-overlapping (each Through strictly
before the next From) and ordered by start time, and the concatenation of all
returned sequences is a permutation of the input, so every input chunk lands
in exactly one sequence. -/
theorem c4_partition_disjoint_perm (chunks : List LazyChunk) :
    (∀ cs ∈ partitionOverlappingChunks chunks,
      List.Chain' (fun a b => a.Chunk.Through < b.Chunk.From) cs ∧
      List.Chain' (fun a b => a.Chunk.From ≤ b.Chunk.From) cs) ∧
    (partitionOverlappingChunks chunks).flatten.Perm chunks := by
  have hpair : List.Pairwise (fun a b => a.Chunk.From ≤ b.Chunk.From)
      (chunks.insertionSort (fun a b => a.Chunk.From ≤ b.Chunk.From)) := by
    have h := List.sorted_insertionSort
      (r := fun a b : LazyChunk => a.Chunk.From ≤ b.Chunk.From) chunks
    exact h
  obtain ⟨_, g2, g3, g4⟩ :=
    partition_fold_inv
      (chunks.insertionSort (fun a b => a.Chunk.From ≤ b.Chunk.From)) []
      hpair (by intro cs h; cases h) (by intro cs h; cases h)
      (by intro cs h; cases h) (by intro cs h; cases h)
  constructor
  · intro cs hcs
    exact ⟨g2 cs hcs, g3 cs hcs⟩
  · unfold partitionOverlappingChunks
    refine g4.trans ?_
    simpa using List.perm_insertionSort (fun a b => a.Chunk.From ≤ b.Chunk.From) chunks

/-- Claim C4 witness: the two-chunk instance with disjoint spans yields one
sequence whose chains the theorem certifies. -/
theorem c4_witness :
    List.Chain' (fun a b => a.Chunk.Through < b.Chunk.From) [partChunkA, partChunkB] ∧
    List.Chain' (fun a b => a.Chunk.From ≤ b.Chunk.From) [partChunkA, partChunkB] :=
  (c4_partition_disjoint_perm [partChunkA, partChunkB]).1 [partChunkA, partChunkB]
    (by decide)
theorem loop_fwd_out (bs : Nat) (hbs : 1 ≤ bs) (start endT : Int) (hc : LazyChunk)
    (carry : List LazyChunk)
    (hno : ¬(unixNano hc.Chunk.From = endT ∧ endT ≠ start)) :
    ∀ (fuel : Nat) (chunks : List LazyChunk) (Fr Th : Int)
      (batch : List LazyChunk) (nc : Option LazyChunk) (io : Bool),
      chunks ≠ [] → chunks.length ≤ fuel →
      ∃ o, nextBatchLoop bs .FORWARD start endT hc carry fuel chunks Fr Th batch nc io =
          .out o ∧
        o.From = (if unixNano hc.Chunk.From < start then start else unixNano hc.Chunk.From) ∧
        o.remaining <:+ chunks ∧
        (o.remaining = [] → o.Through = Th ∨ o.Through - o.From ≤ 0) ∧
        (∀ c2 tl2, o.remaining = c2 :: tl2 →
          o.nextChunk = some c2 ∧ o.Through = unixNano c2.Chunk.From ∧
          0 < o.Through - o.From) := by
  intro fuel
  induction fuel with
  | zero =>
      intro chunks Fr Th batch nc io hne hlen
      cases chunks with
      | nil => exact absurd rfl hne
      | cons c cs => simp at hlen
  | succ fuel ih =>
      intro chunks Fr Th batch nc io hne hlen
      cases chunks with
      | nil => exact absurd rfl hne
      | cons c cs =>
          have hlen2 : (List.drop bs (c :: cs)).length ≤ fuel := by
            simp only [List.length_drop, List.length_cons] at *
            omega
          simp only [nextBatchLoop]
          rw [if_neg hno]
          set F := if unixNano hc.Chunk.From < start then start else unixNano hc.Chunk.From
            with hFdef
          cases hrest : List.drop bs (c :: cs) with
          | nil =>
              simp only [hrest]
              split
              · next hbreak =>
                  exact ⟨_, rfl, rfl, List.nil_suffix, fun _ => Or.inl rfl,
                    fun c2 tl2 h => by cases h⟩
              · next hbreak =>
                  simp only [nextBatchLoop]
                  exact ⟨_, rfl, rfl, List.nil_suffix, fun _ => Or.inl rfl,
                    fun c2 tl2 h => by cases h⟩
          | cons c2 rest2 =>
              simp only [hrest]
              split
              · next hbreak =>
                  refine ⟨_, rfl, rfl, ?_, ?_, ?_⟩
                  · rw [← hrest]; exact List.drop_suffix bs (c :: cs)
                  · intro h; cases h
                  · intro c3 tl3 h
                    injection h with h1 h2
                    subst h1
                    exact ⟨rfl, rfl, hbreak⟩
              · next hbreak =>
                  obtain ⟨o, heq, hFrom, hsuf, hemp, hcons⟩ :=
                    ih (c2 :: rest2) _ _ _ _ true (by simp) (hrest ▸ hlen2)
                  refine ⟨o, heq, hFrom, ?_, ?_, hcons⟩
                  · refine hsuf.trans ?_
                    rw [← hrest]
                    exact List.drop_suffix bs (c :: cs)
                  · intro hro
                    right
                    rcases hemp hro with h | h
                    · rw [hFrom, h]
                      omega
                    · exact h

theorem loop_fwd_nil (bs : Nat) (start endT : Int) (hc : LazyChunk)
    (carry : List LazyChunk)
    (hnil : unixNano hc.Chunk.From = endT ∧ endT ≠ start)
    (fuel : Nat) (c : LazyChunk) (cs : List LazyChunk) (Fr Th : Int)
    (batch : List LazyChunk) (nc : Option LazyChunk) (io : Bool) :
    nextBatchLoop bs .FORWARD start endT hc carry (fuel + 1) (c :: cs) Fr Th batch nc io =
      .nilBatch (List.drop bs (c :: cs)) := by
  simp only [nextBatchLoop]
  rw [if_pos hnil]

theorem loop_bwd_out (bs : Nat) (hbs : 1 ≤ bs) (start endT : Int) (hc : LazyChunk)
    (carry : List LazyChunk) :
    ∀ (fuel : Nat) (chunks : List LazyChunk) (Fr Th : Int)
      (batch : List LazyChunk) (nc : Option LazyChunk) (io : Bool),
      chunks ≠ [] → chunks.length ≤ fuel →
      ∃ o, nextBatchLoop bs .BACKWARD start endT hc carry fuel chunks Fr Th batch nc io =
          .out o ∧
        o.Through = clampShiftThrough endT (unixNano hc.Chunk.Through) ∧
        o.remaining <:+ chunks ∧
        (o.remaining = [] → o.From = Fr ∨ o.Through - o.From ≤ 0) ∧
        (∀ c2 tl2, o.remaining = c2 :: tl2 →
          o.nextChunk = some c2 ∧
          o.From = shiftFromStart start (unixNano c2.Chunk.Through) ∧
          0 < o.Through - o.From) := by
  intro fuel
  induction fuel with
  | zero =>
      intro chunks Fr Th batch nc io hne hlen
      cases chunks with
      | nil => exact absurd rfl hne
      | cons c cs => simp at hlen
  | succ fuel ih =>
      intro chunks Fr Th batch nc io hne hlen
      cases chunks with
      | nil => exact absurd rfl hne
      | cons c cs =>
          have hlen2 : (List.drop bs (c :: cs)).length ≤ fuel := by
            simp only [List.length_drop, List.length_cons] at *
            omega
          simp only [nextBatchLoop]
          have hTdef :
              (if (if endT < unixNano hc.Chunk.Through then endT else unixNano hc.Chunk.Through) = endT
                then (if endT < unixNano hc.Chunk.Through then endT else unixNano hc.Chunk.Through)
                else (if endT < unixNano hc.Chunk.Through then endT else unixNano hc.Chunk.Through) + 1) =
              clampShiftThrough endT (unixNano hc.Chunk.Through) := rfl
          rw [hTdef]
          cases hrest : List.drop bs (c :: cs) with
          | nil =>
              simp only [hrest]
              split
              · next hbreak =>
                  exact ⟨_, rfl, rfl, List.nil_suffix, fun _ => Or.inl rfl,
                    fun c2 tl2 h => by cases h⟩
              · next hbreak =>
                  simp only [nextBatchLoop]
                  exact ⟨_, rfl, rfl, List.nil_suffix, fun _ => Or.inl rfl,
                    fun c2 tl2 h => by cases h⟩
          | cons c2 rest2 =>
              simp only [hrest]
              have hFdef :
                  (if unixNano c2.Chunk.Through = start then unixNano c2.Chunk.Through
                    else unixNano c2.Chunk.Through + 1) =
                  shiftFromStart start (unixNano c2.Chunk.Through) := rfl
              rw [hFdef]
              split
              · next hbreak =>
                  refine ⟨_, rfl, rfl, ?_, ?_, ?_⟩
                  · rw [← hrest]; exact List.drop_suffix bs (c :: cs)
                  · intro h; cases h
                  · intro c3 tl3 h
                    injection h with h1 h2
                    subst h1
                    exact ⟨rfl, rfl, hbreak⟩
              · next hbreak =>
                  obtain ⟨o, heq, hTh, hsuf, hemp, hcons⟩ :=
                    ih (c2 :: rest2) _ _ _ _ true (by simp) (hrest ▸ hlen2)
                  refine ⟨o, heq, hTh, ?_, ?_, hcons⟩
                  · refine hsuf.trans ?_
                    rw [← hrest]
                    exact List.drop_suffix bs (c :: cs)
                  · intro hro
                    right
                    rcases hemp hro with h | h
                    · rw [hTh, h]
                      omega
                    · exact h

theorem loop_batch_ext (bs : Nat) (dir : Direction) (start endT : Int)
    (hc : LazyChunk) (carry : List LazyChunk) :
    ∀ (fuel : Nat) (chunks : List LazyChunk) (Fr Th : Int)
      (batch : List LazyChunk) (nc : Option LazyChunk) (o : LoopOut),
      nextBatchLoop bs dir start endT hc carry fuel chunks Fr Th batch nc true = .out o →
      ∃ s, o.batch = batch ++ s := by
  intro fuel
  induction fuel with
  | zero =>
      intro chunks Fr Th batch nc o h
      cases chunks with
      | nil =>
          simp only [nextBatchLoop] at h
          injection h with h
          subst h
          exact ⟨[], by simp⟩
      | cons c cs =>
          simp only [nextBatchLoop] at h
          cases h
  | succ fuel ih =>
      intro chunks Fr Th batch nc o h
      cases chunks with
      | nil =>
          simp only [nextBatchLoop] at h
          injection h with h
          subst h
          exact ⟨[], by simp⟩
      | cons c cs =>
          simp only [nextBatchLoop, reduceCtorEq, false_and, if_false] at h
          cases dir with
          | BACKWARD =>
              have hTdef :
                  (if (if endT < unixNano hc.Chunk.Through then endT
                        else unixNano hc.Chunk.Through) = endT
                    then (if endT < unixNano hc.Chunk.Through then endT
                        else unixNano hc.Chunk.Through)
                    else (if endT < unixNano hc.Chunk.Through then endT
                        else unixNano hc.Chunk.Through) + 1) =
                  clampShiftThrough endT (unixNano hc.Chunk.Through) := rfl
              rw [hTdef] at h
              cases hrest : List.drop bs (c :: cs) with
              | nil =>
                  simp only [hrest] at h
                  split at h
                  · next =>
                      injection h with h
                      subst h
                      exact ⟨List.take bs (c :: cs), rfl⟩
                  · next =>
                      obtain ⟨s, hs⟩ := ih _ _ _ _ _ _ h
                      exact ⟨List.take bs (c :: cs) ++ s, by rw [hs, List.append_assoc]⟩
              | cons c2 rest2 =>
                  simp only [hrest] at h
                  have hFdef :
                      (if unixNano c2.Chunk.Through = start then unixNano c2.Chunk.Through
                        else unixNano c2.Chunk.Through + 1) =
                      shiftFromStart start (unixNano c2.Chunk.Through) := rfl
                  rw [hFdef] at h
                  split at h
                  · next =>
                      injection h with h
                      subst h
                      exact ⟨List.take bs (c :: cs), rfl⟩
                  · next =>
                      obtain ⟨s, hs⟩ := ih _ _ _ _ _ _ h
                      exact ⟨List.take bs (c :: cs) ++ s, by rw [hs, List.append_assoc]⟩
          | FORWARD =>
              have hFdef :
                  (if unixNano hc.Chunk.From < start then start
                    else unixNano hc.Chunk.From) =
                  clampFromStart start (unixNano hc.Chunk.From) := rfl
              rw [hFdef] at h
              cases hrest : List.drop bs (c :: cs) with
              | nil =>
                  simp only [hrest] at h
                  split at h
                  · next => cases h
                  · next =>
                      split at h
                      · next =>
                          injection h with h
                          subst h
                          exact ⟨List.take bs (c :: cs), rfl⟩
                      · next =>
                          obtain ⟨s, hs⟩ := ih _ _ _ _ _ _ h
                          exact ⟨List.take bs (c :: cs) ++ s, by rw [hs, List.append_assoc]⟩
              | cons c2 rest2 =>
                  simp only [hrest] at h
                  split at h
                  · next => cases h
                  · next =>
                      split at h
                      · next =>
                          injection h with h
                          subst h
                          exact ⟨List.take bs (c :: cs), rfl⟩
                      · next =>
                          obtain ⟨s, hs⟩ := ih _ _ _ _ _ _ h
                          exact ⟨List.take bs (c :: cs) ++ s, by rw [hs, List.append_assoc]⟩

theorem loop_batch_start (bs : Nat) (dir : Direction) (start endT : Int)
    (hc : LazyChunk) (carry : List LazyChunk) (fuel : Nat) (c : LazyChunk)
    (cs : List LazyChunk) (Fr Th : Int) (o : LoopOut)
    (h : nextBatchLoop bs dir start endT hc carry (fuel + 1) (c :: cs) Fr Th [] none false =
      .out o) :
    (dir = .FORWARD → ∃ s, o.batch = carry ++ s) ∧
    (dir = .BACKWARD → ∃ s, o.batch = List.take bs (c :: cs) ++ carry ++ s) := by
  cases dir with
  | FORWARD =>
      refine ⟨fun _ => ?_, fun hd => nomatch hd⟩
      simp only [nextBatchLoop] at h
      have hFdef :
          (if unixNano hc.Chunk.From < start then start
            else unixNano hc.Chunk.From) =
          clampFromStart start (unixNano hc.Chunk.From) := rfl
      rw [hFdef] at h
      simp only [reduceCtorEq, and_false, and_true, if_false, if_true, List.nil_append] at h
      cases hrest : List.drop bs (c :: cs) with
      | nil =>
          simp only [hrest] at h
          split at h
          · next => cases h
          · next =>
              split at h
              · next =>
                  injection h with h
                  subst h
                  exact ⟨List.take bs (c :: cs), rfl⟩
              · next =>
                  obtain ⟨s, hs⟩ := loop_batch_ext bs .FORWARD start endT hc carry
                    fuel _ _ _ _ _ _ h
                  exact ⟨List.take bs (c :: cs) ++ s, by rw [hs, List.append_assoc]⟩
      | cons c2 rest2 =>
          simp only [hrest] at h
          split at h
          · next => cases h
          · next =>
              split at h
              · next =>
                  injection h with h
                  subst h
                  exact ⟨List.take bs (c :: cs), rfl⟩
              · next =>
                  obtain ⟨s, hs⟩ := loop_batch_ext bs .FORWARD start endT hc carry
                    fuel _ _ _ _ _ _ h
                  exact ⟨List.take bs (c :: cs) ++ s, by rw [hs, List.append_assoc]⟩
  | BACKWARD =>
      refine ⟨fun hd => (nomatch hd), fun _ => ?_⟩
      simp only [nextBatchLoop] at h
      have hTdef :
          (if (if endT < unixNano hc.Chunk.Through then endT
                else unixNano hc.Chunk.Through) = endT
            then (if endT < unixNano hc.Chunk.Through then endT
                else unixNano hc.Chunk.Through)
            else (if endT < unixNano hc.Chunk.Through then endT
                else unixNano hc.Chunk.Through) + 1) =
          clampShiftThrough endT (unixNano hc.Chunk.Through) := rfl
      rw [hTdef] at h
      simp only [reduceCtorEq, and_false, and_true, if_false, if_true, List.nil_append] at h
      cases hrest : List.drop bs (c :: cs) with
      | nil =>
          simp only [hrest] at h
          split at h
          · next =>
              injection h with h
              subst h
              exact ⟨[], by simp⟩
          · next =>
              obtain ⟨s, hs⟩ := loop_batch_ext bs .BACKWARD start endT hc carry
                fuel _ _ _ _ _ _ h
              exact ⟨s, by rw [hs]⟩
      | cons c2 rest2 =>
          simp only [hrest] at h
          have hFdef :
              (if unixNano c2.Chunk.Through = start then unixNano c2.Chunk.Through
                else unixNano c2.Chunk.Through + 1) =
              shiftFromStart start (unixNano c2.Chunk.Through) := rfl
          rw [hFdef] at h
          split at h
          · next =>
              injection h with h
              subst h
              exact ⟨[], by simp⟩
          · next =>
              obtain ⟨s, hs⟩ := loop_batch_ext bs .BACKWARD start endT hc carry
                fuel _ _ _ _ _ _ h
              exact ⟨s, by rw [hs]⟩

theorem plan_fwd (st : BatchIterState) (hc : LazyChunk) (tl : List LazyChunk)
    (hchunks : st.chunks = hc :: tl) (hbs : 1 ≤ st.batchSize)
    (hdir : st.direction = .FORWARD)
    (hno : ¬(unixNano hc.Chunk.From = st.endT ∧ st.endT ≠ st.start)) :
    ∃ p, nextBatchPlan st = some (.out p) ∧
      p.From = clampFromStart st.start (unixNano hc.Chunk.From) ∧
      p.remaining <:+ (hc :: tl) ∧
      (∃ s, p.batch = st.lastOverlapping ++ s) ∧
      (p.remaining = [] → p.Through = st.endT) ∧
      (∀ c2 tl2, p.remaining = c2 :: tl2 →
        p.nextChunk = some c2 ∧ p.Through = unixNano c2.Chunk.From ∧
        0 < p.Through - p.From ∧
        p.lastOverlapping = p.batch.filter (fun c => isOverlapping c c2 .FORWARD)) := by
  obtain ⟨o, heq, hFrom, hsuf, hemp, hcons⟩ :=
    loop_fwd_out st.batchSize hbs st.start st.endT hc st.lastOverlapping hno
      (hc :: tl).length (hc :: tl) st.start st.endT [] none false (by simp) le_rfl
  rw [show (if unixNano hc.Chunk.From < st.start then st.start
      else unixNano hc.Chunk.From) = clampFromStart st.start (unixNano hc.Chunk.From)
    from rfl] at hFrom
  obtain ⟨hbf, _⟩ := loop_batch_start st.batchSize .FORWARD st.start st.endT hc
    st.lastOverlapping tl.length hc tl st.start st.endT o heq
  have hbatch := hbf rfl
  cases hrem : o.remaining with
  | nil =>
      have hThfinal : (if o.Through - o.From ≤ 0 then st.endT else o.Through) = st.endT := by
        by_cases hw : o.Through - o.From ≤ 0
        · simp [hw]
        · rcases hemp hrem with h | h
          · simp [hw, h]
          · exact absurd h hw
      have hplan : nextBatchPlan st =
          some (.out ⟨o.From, st.endT, o.batch, o.nextChunk, st.lastOverlapping, []⟩) := by
        simp only [nextBatchPlan, hchunks, hdir, heq, hrem, eq_self_iff_true, and_true,
          and_false, reduceCtorEq, if_false, hThfinal]
      refine ⟨_, hplan, hFrom, List.nil_suffix, hbatch, fun _ => rfl,
        fun c2 tl2 h => (nomatch h)⟩
  | cons c2 tl2 =>
      obtain ⟨hnc, hTh, hwpos⟩ := hcons c2 tl2 hrem
      have hw : ¬(o.Through - o.From ≤ 0) := by omega
      have hplan : nextBatchPlan st =
          some (.out ⟨o.From, o.Through, o.batch, o.nextChunk,
            o.batch.filter (fun c => isOverlapping c c2 .FORWARD), c2 :: tl2⟩) := by
        simp only [nextBatchPlan, hchunks, hdir, heq, hrem, hnc, eq_self_iff_true,
          and_true, and_false, reduceCtorEq, if_false, if_neg hw]
      refine ⟨_, hplan, hFrom, ?_, hbatch, fun h => (nomatch h), ?_⟩
      · rw [← hrem]; exact hsuf
      · intro c3 tl3 h
        injection h with h1 h2
        subst h1
        exact ⟨hnc, hTh, hwpos, rfl⟩

theorem plan_fwd_nil (st : BatchIterState) (hc : LazyChunk) (tl : List LazyChunk)
    (hchunks : st.chunks = hc :: tl) (hdir : st.direction = .FORWARD)
    (hnil : unixNano hc.Chunk.From = st.endT ∧ st.endT ≠ st.start) :
    nextBatchPlan st =
      some (.nilBatch (List.drop st.batchSize (hc :: tl)) st.lastOverlapping) := by
  simp only [nextBatchPlan, hchunks, hdir]
  rw [show (hc :: tl).length = tl.length + 1 from rfl]
  rw [loop_fwd_nil st.batchSize st.start st.endT hc st.lastOverlapping hnil tl.length hc tl]

theorem plan_bwd (st : BatchIterState) (hc : LazyChunk) (tl : List LazyChunk)
    (hchunks : st.chunks = hc :: tl) (hbs : 1 ≤ st.batchSize)
    (hdir : st.direction = .BACKWARD) :
    ∃ p, nextBatchPlan st = some (.out p) ∧
      p.Through = clampShiftThrough st.endT (unixNano hc.Chunk.Through) ∧
      p.remaining <:+ (hc :: tl) ∧
      (∃ s, p.batch = List.take st.batchSize (hc :: tl) ++ st.lastOverlapping ++ s) ∧
      (p.remaining = [] → p.From = st.start) ∧
      (∀ c2 tl2, p.remaining = c2 :: tl2 →
        p.nextChunk = some c2 ∧
        p.From = shiftFromStart st.start (unixNano c2.Chunk.Through) ∧
        0 < p.Through - p.From ∧
        p.lastOverlapping = p.batch.filter (fun c => isOverlapping c c2 .BACKWARD)) := by
  obtain ⟨o, heq, hTh, hsuf, hemp, hcons⟩ :=
    loop_bwd_out st.batchSize hbs st.start st.endT hc st.lastOverlapping
      (hc :: tl).length (hc :: tl) st.start st.endT [] none false (by simp) le_rfl
  obtain ⟨_, hbb⟩ := loop_batch_start st.batchSize .BACKWARD st.start st.endT hc
    st.lastOverlapping tl.length hc tl st.start st.endT o heq
  have hbatch := hbb rfl
  cases hrem : o.remaining with
  | nil =>
      have hFrfinal : (if o.Through - o.From ≤ 0 then st.start else o.From) = st.start := by
        by_cases hw : o.Through - o.From ≤ 0
        · simp [hw]
        · rcases hemp hrem with h | h
          · simp [hw, h]
          · exact absurd h hw
      have hplan : nextBatchPlan st =
          some (.out ⟨st.start, o.Through, o.batch, o.nextChunk, st.lastOverlapping, []⟩) := by
        simp only [nextBatchPlan, hchunks, hdir, heq, hrem, eq_self_iff_true, and_true,
          and_false, reduceCtorEq, if_false, hFrfinal]
      refine ⟨_, hplan, hTh, List.nil_suffix, hbatch, fun _ => rfl,
        fun c2 tl2 h => (nomatch h)⟩
  | cons c2 tl2 =>
      obtain ⟨hnc, hFr, hwpos⟩ := hcons c2 tl2 hrem
      have hw : ¬(o.Through - o.From ≤ 0) := by omega
      have hplan : nextBatchPlan st =
          some (.out ⟨o.From, o.Through, o.batch, o.nextChunk,
            o.batch.filter (fun c => isOverlapping c c2 .BACKWARD), c2 :: tl2⟩) := by
        simp only [nextBatchPlan, hchunks, hdir, heq, hrem, hnc, eq_self_iff_true,
          and_true, and_false, reduceCtorEq, if_false, if_neg hw]
      refine ⟨_, hplan, hTh, ?_, hbatch, fun h => (nomatch h), ?_⟩
      · rw [← hrem]; exact hsuf
      · intro c3 tl3 h
        injection h with h1 h2
        subst h1
        exact ⟨hnc, hFr, hwpos, rfl⟩

theorem clampFromStart_eq_max (a b : Int) : clampFromStart a b = max a b := by
  unfold clampFromStart
  rcases le_total a b with h | h
  · rw [if_neg (by omega), max_eq_right h]
  · rcases eq_or_lt_of_le h with h2 | h2
    · subst h2; rw [if_neg (by omega), max_self]
    · rw [if_pos h2, max_eq_left h]

theorem clampFromStart_ge (a b : Int) : a ≤ clampFromStart a b := by
  unfold clampFromStart
  split <;> omega

theorem clampShiftThrough_spec (endT t : Int) :
    clampShiftThrough endT t =
      (if min t endT = endT then min t endT else min t endT + 1) := by
  unfold clampShiftThrough
  have hmin : (if endT < t then endT else t) = min t endT := by
    rcases le_total t endT with h | h
    · rw [if_neg (by omega), min_eq_left h]
    · rcases eq_or_lt_of_le h with h2 | h2
      · subst h2; rw [if_neg (by omega), min_self]
      · rw [if_pos h2, min_eq_right h]
  rw [hmin]

theorem clampShiftThrough_le (endT t : Int) : clampShiftThrough endT t ≤ endT := by
  unfold clampShiftThrough
  by_cases h1 : endT < t
  · simp [if_pos h1]
  · rw [if_neg h1]
    by_cases h2 : t = endT
    · rw [if_pos h2]; omega
    · rw [if_neg h2]; omega

theorem shiftFromStart_ge (a u : Int) (h : a ≤ u) : a ≤ shiftFromStart a u := by
  unfold shiftFromStart
  split <;> omega

/-- Claim C2: for every planning step the emitted window bounds are exactly
the ones the specification describes.  Forward: from is the head chunk start
clamped to the query start; the step yields no window (nextBatch returns nil,
after consuming the pop) when the head chunk start equals the query end and
start differs from end; through is the first remaining chunk start when
chunks remain, else the query end.  Backward: through is the head chunk end
clamped to the query end then shifted by one nanosecond unless it equals the
query end; from is the first remaining chunk end with the same shift rule
against the query start when chunks remain, else the query start. -/
theorem c2_window_bounds (st : BatchIterState) (hc : LazyChunk) (tl : List LazyChunk)
    (hchunks : st.chunks = hc :: tl) (hbs : 1 ≤ st.batchSize) :
    (st.direction = .FORWARD →
      (specForwardBounds st.start st.endT hc none = none →
        nextBatchPlan st =
          some (.nilBatch (List.drop st.batchSize (hc :: tl)) st.lastOverlapping)) ∧
      (∀ p, nextBatchPlan st = some (.out p) →
        specForwardBounds st.start st.endT hc p.remaining.head? =
          some (p.From, p.Through))) ∧
    (st.direction = .BACKWARD →
      ∀ p, nextBatchPlan st = some (.out p) →
        specBackwardBounds st.start st.endT hc p.remaining.head? =
          (p.From, p.Through)) := by
  constructor
  · intro hdir
    constructor
    · intro hnone
      unfold specForwardBounds at hnone
      by_cases hcond : unixNano hc.Chunk.From = st.endT ∧ st.endT ≠ st.start
      · exact plan_fwd_nil st hc tl hchunks hdir hcond
      · rw [if_neg hcond] at hnone
        cases hnone
    · intro p hp
      by_cases hcond : unixNano hc.Chunk.From = st.endT ∧ st.endT ≠ st.start
      · rw [plan_fwd_nil st hc tl hchunks hdir hcond] at hp
        cases hp
      · obtain ⟨p2, hp2, hFrom, hsuf, hbatch, hemp, hcons⟩ :=
          plan_fwd st hc tl hchunks hbs hdir hcond
        rw [hp] at hp2
        injection hp2 with hp2
        injection hp2 with hp2
        subst hp2
        unfold specForwardBounds
        rw [if_neg hcond]
        have h1 : max st.start (unixNano hc.Chunk.From) = p.From := by
          rw [hFrom, clampFromStart_eq_max]
        cases hrem : p.remaining with
        | nil =>
            simp only [hrem, List.head?_nil, h1]
            rw [hemp hrem]
        | cons c2 tl2 =>
            obtain ⟨_, hTh, _, _⟩ := hcons c2 tl2 hrem
            simp only [hrem, List.head?_cons, h1]
            rw [hTh]
  · intro hdir p hp
    obtain ⟨p2, hp2, hTh, hsuf, hbatch, hemp, hcons⟩ :=
      plan_bwd st hc tl hchunks hbs hdir
    rw [hp] at hp2
    injection hp2 with hp2
    injection hp2 with hp2
    subst hp2
    unfold specBackwardBounds
    have h2 : (if min (unixNano hc.Chunk.Through) st.endT = st.endT then
        min (unixNano hc.Chunk.Through) st.endT
      else min (unixNano hc.Chunk.Through) st.endT + 1) = p.Through := by
      rw [hTh, clampShiftThrough_spec]
    cases hrem : p.remaining with
    | nil =>
        simp only [hrem, List.head?_nil, h2]
        rw [hemp hrem]
    | cons c2 tl2 =>
        obtain ⟨_, hFr, _, _⟩ := hcons c2 tl2 hrem
        simp only [hrem, List.head?_cons, h2]
        rw [hFr]
        unfold shiftFromStart
        rfl

/-- Claim C2 witness: the forward two-chunk instance emits the window the
specification formulas give. -/
theorem c2_witness :
    specForwardBounds stC2W.start stC2W.endT bpChunkA pC2W.remaining.head? =
      some (pC2W.From, pC2W.Through) :=
  ((c2_window_bounds stC2W bpChunkA [bpChunkB] rfl (by decide)).1 rfl).2 pC2W (by decide)

theorem plan_bounds_within (st : BatchIterState) (hc : LazyChunk) (tl : List LazyChunk)
    (hchunks : st.chunks = hc :: tl) (hbs : 1 ≤ st.batchSize)
    (hin : ∀ c ∈ st.chunks, unixNano c.Chunk.From ≤ st.endT ∧
      st.start ≤ unixNano c.Chunk.Through) :
    ∀ p, nextBatchPlan st = some (.out p) →
      st.start ≤ p.From ∧ p.Through ≤ st.endT := by
  intro p hp
  cases hdir : st.direction with
  | FORWARD =>
      by_cases hcond : unixNano hc.Chunk.From = st.endT ∧ st.endT ≠ st.start
      · rw [plan_fwd_nil st hc tl hchunks hdir hcond] at hp
        cases hp
      · obtain ⟨p2, hp2, hFrom, hsuf, hbatch, hemp, hcons⟩ :=
          plan_fwd st hc tl hchunks hbs hdir hcond
        rw [hp] at hp2
        injection hp2 with hp2
        injection hp2 with hp2
        subst hp2
        constructor
        · rw [hFrom]
          exact clampFromStart_ge st.start (unixNano hc.Chunk.From)
        · cases hrem : p.remaining with
          | nil => rw [hemp hrem]
          | cons c2 tl2 =>
              obtain ⟨_, hTh, _, _⟩ := hcons c2 tl2 hrem
              rw [hTh]
              have hmem : c2 ∈ st.chunks := by
                rw [hchunks]
                exact hsuf.subset (hrem ▸ List.mem_cons_self c2 tl2)
              exact (hin c2 hmem).1
  | BACKWARD =>
      obtain ⟨p2, hp2, hTh, hsuf, hbatch, hemp, hcons⟩ :=
        plan_bwd st hc tl hchunks hbs hdir
      rw [hp] at hp2
      injection hp2 with hp2
      injection hp2 with hp2
      subst hp2
      constructor
      · cases hrem : p.remaining with
        | nil => rw [hemp hrem]
        | cons c2 tl2 =>
            obtain ⟨_, hFr, _, _⟩ := hcons c2 tl2 hrem
            rw [hFr]
            have hmem : c2 ∈ st.chunks := by
              rw [hchunks]
              exact hsuf.subset (hrem ▸ List.mem_cons_self c2 tl2)
            exact shiftFromStart_ge st.start (unixNano c2.Chunk.Through) (hin c2 hmem).2
      · rw [hTh]
        exact clampShiftThrough_le st.endT (unixNano hc.Chunk.Through)

/-- Claim C1 (amended): provided every chunk handed to the iterator
intersects the query range -- its start, in nanoseconds, is at most the query
end and its end is at least the query start -- every chunkBatch emitted by
nextBatch with a nil error field satisfies query start at most batch from and
batch through at most query end, for both directions.  Without that proviso
the bounds can escape the range: see the counterexample. -/
theorem c1_bounds_within_query (env : Nat → FetchOutcome) (st : BatchIterState)
    (hc : LazyChunk) (tl : List LazyChunk) (hchunks : st.chunks = hc :: tl)
    (hbs : 1 ≤ st.batchSize)
    (hin : ∀ c ∈ st.chunks, unixNano c.Chunk.From ≤ st.endT ∧
      st.start ≤ unixNano c.Chunk.Through) :
    ∀ b, (nextBatchFull env st).1 = some b → b.err = none →
      st.start ≤ b.From ∧ b.Through ≤ st.endT := by
  intro b hb herr
  unfold nextBatchFull at hb
  cases hplan : nextBatchPlan st with
  | none => rw [hplan] at hb; cases hb
  | some r =>
      cases r with
      | diverge => rw [hplan] at hb; cases hb
      | nilBatch rest carry => rw [hplan] at hb; cases hb
      | out p =>
          rw [hplan] at hb
          dsimp only at hb
          cases hf : fetchChunkBySeries env st.matchers st.chunkFilterer p.batch with
          | error e =>
              rw [hf] at hb
              dsimp only at hb
              injection hb with hb
              rw [← hb] at herr
              cases herr
          | ok m =>
              rw [hf] at hb
              dsimp only at hb
              injection hb with hb
              rw [← hb]
              exact plan_bounds_within st hc tl hchunks hbs hin p hplan

/-- Claim C1 witness: on an in-range chunk the emitted batch stays inside the
query bounds. -/
theorem c1_witness : stC1W.start ≤ bC1W.From ∧ bC1W.Through ≤ stC1W.endT :=
  c1_bounds_within_query envOkW stC1W bpChunkA [] rfl (by decide) (by decide)
    bC1W (by decide) (by decide)

/-- Claim C1 counterexample: with a chunk set extending past the query end
(query range 0 to 10 nanoseconds, second chunk starting at one millisecond),
nextBatch emits an error-free batch whose through bound 1000000 exceeds the
query end 10, so the invariant as stated fails on general inputs. -/
theorem c1_counterexample :
    ((nextBatchFull envOkW stC1X).1.map ChunkBatch.err) = some none ∧
    ((nextBatchFull envOkW stC1X).1.map ChunkBatch.Through) = some 1000000 ∧
    stC1X.endT = 10 ∧ ¬((1000000 : Int) ≤ 10) := by decide

/-- Claim C7: an emitted planning window that leaves chunks remaining always
has positive width (the loop keeps popping instead of returning a zero-width
window); and when the chunk set is exhausted the bounds are reset on the
direction-appropriate side: through becomes the query end for forward
direction, from becomes the query start for backward direction. -/
theorem c7_keep_popping_and_reset (st : BatchIterState) (hc : LazyChunk)
    (tl : List LazyChunk) (hchunks : st.chunks = hc :: tl) (hbs : 1 ≤ st.batchSize) :
    ∀ p, nextBatchPlan st = some (.out p) →
      (p.remaining ≠ [] → 0 < p.Through - p.From) ∧
      (p.remaining = [] →
        (st.direction = .FORWARD → p.Through = st.endT) ∧
        (st.direction = .BACKWARD → p.From = st.start)) := by
  intro p hp
  cases hdir : st.direction with
  | FORWARD =>
      by_cases hcond : unixNano hc.Chunk.From = st.endT ∧ st.endT ≠ st.start
      · rw [plan_fwd_nil st hc tl hchunks hdir hcond] at hp
        cases hp
      · obtain ⟨p2, hp2, hFrom, hsuf, hbatch, hemp, hcons⟩ :=
          plan_fwd st hc tl hchunks hbs hdir hcond
        rw [hp] at hp2
        injection hp2 with hp2
        injection hp2 with hp2
        subst hp2
        constructor
        · intro hne
          cases hrem : p.remaining with
          | nil => exact absurd hrem hne
          | cons c2 tl2 => exact (hcons c2 tl2 hrem).2.2.1
        · intro hrem
          exact ⟨fun _ => hemp hrem, fun hd => (nomatch hd)⟩
  | BACKWARD =>
      obtain ⟨p2, hp2, hTh, hsuf, hbatch, hemp, hcons⟩ :=
        plan_bwd st hc tl hchunks hbs hdir
      rw [hp] at hp2
      injection hp2 with hp2
      injection hp2 with hp2
      subst hp2
      constructor
      · intro hne
        cases hrem : p.remaining with
        | nil => exact absurd hrem hne
        | cons c2 tl2 => exact (hcons c2 tl2 hrem).2.2.1
      · intro hrem
        exact ⟨fun hd => (nomatch hd), fun _ => hemp hrem⟩

/-- Claim C7 witness: the two-chunk forward instance emits a positive-width
window while a chunk remains. -/
theorem c7_witness : 0 < pC2W.Through - pC2W.From :=
  ((c7_keep_popping_and_reset stC2W bpChunkA [bpChunkB] rfl (by decide)
    pC2W (by decide)).1 (by decide))

/-- Claim C3 (amended): at every planning step that leaves chunks remaining
the carry is recomputed as exactly the popped chunks whose span overlaps the
next chunk under the direction-aware overlap test; and at the next step the
previous carry is PREPENDED to the newly popped chunks for FORWARD direction
and APPENDED after them for BACKWARD direction (batch.go lines 186-194 run
the forward append of the carry before the pop and the backward append after
it), keeping the batch sorted in query direction. -/
theorem c3_carry_assembly (st : BatchIterState) (hc : LazyChunk)
    (tl : List LazyChunk) (hchunks : st.chunks = hc :: tl) (hbs : 1 ≤ st.batchSize) :
    ∀ p, nextBatchPlan st = some (.out p) →
      (∀ c2 tl2, p.remaining = c2 :: tl2 →
        p.lastOverlapping = p.batch.filter (fun c => isOverlapping c c2 st.direction)) ∧
      (st.direction = .FORWARD → ∃ s, p.batch = st.lastOverlapping ++ s) ∧
      (st.direction = .BACKWARD →
        ∃ s, p.batch = List.take st.batchSize (hc :: tl) ++ st.lastOverlapping ++ s) := by
  intro p hp
  cases hdir : st.direction with
  | FORWARD =>
      by_cases hcond : unixNano hc.Chunk.From = st.endT ∧ st.endT ≠ st.start
      · rw [plan_fwd_nil st hc tl hchunks hdir hcond] at hp
        cases hp
      · obtain ⟨p2, hp2, hFrom, hsuf, hbatch, hemp, hcons⟩ :=
          plan_fwd st hc tl hchunks hbs hdir hcond
        rw [hp] at hp2
        injection hp2 with hp2
        injection hp2 with hp2
        subst hp2
        refine ⟨?_, fun _ => hbatch, fun hd => (nomatch hd)⟩
        intro c2 tl2 hrem
        exact (hcons c2 tl2 hrem).2.2.2
  | BACKWARD =>
      obtain ⟨p2, hp2, hTh, hsuf, hbatch, hemp, hcons⟩ :=
        plan_bwd st hc tl hchunks hbs hdir
      rw [hp] at hp2
      injection hp2 with hp2
      injection hp2 with hp2
      subst hp2
      refine ⟨?_, fun hd => (nomatch hd), fun _ => hbatch⟩
      intro c2 tl2 hrem
      exact (hcons c2 tl2 hrem).2.2.2

/-- Claim C3 witness: with carry bpChunkA and popped chunk bpChunkB in
forward direction, the emitted batch extends the carry on the right. -/
theorem c3_witness : ∃ s, pC3X.batch = stC3X.lastOverlapping ++ s :=
  ((c3_carry_assembly stC3X bpChunkB [] rfl (by decide) pC3X (by decide)).2.1 rfl)

/-- Claim C3 counterexample: in FORWARD direction the carry is prepended, not
appended: the batch comes out as the carry bpChunkA followed by the popped
bpChunkB, which differs from the popped chunks followed by the carry that the
claim describes for forward direction. -/
theorem c3_counterexample :
    planBatch (nextBatchPlan stC3X) = some [bpChunkA, bpChunkB] ∧
    stC3X.direction = Direction.FORWARD ∧
    [bpChunkA, bpChunkB] ≠
      List.take stC3X.batchSize stC3X.chunks ++ stC3X.lastOverlapping := by decide

/-- Claim C6 (amended): the production loop does not stop after emitting a
window carrying an error: while chunks remain it keeps producing.  For every
state and storage environment, if chunks remain after the step that produced
the current window (whatever its error field), the loop emits that window and
at least one more. -/
theorem c6_loop_continues (env : Nat → FetchOutcome) (st : BatchIterState)
    (fuel : Nat) (hne : st.chunks ≠ []) (hrem : (nextBatchFull env st).2.1 ≠ []) :
    (loopEmit env st (fuel + 2)).head? = some (nextBatchFull env st).1 ∧
    2 ≤ (loopEmit env st (fuel + 2)).length := by
  have hemp : st.chunks.isEmpty = false := by
    cases hch : st.chunks with
    | nil => exact absurd hch hne
    | cons a l => rfl
  constructor
  · simp only [loopEmit, hemp, Bool.false_eq_true, if_false, List.head?_cons]
  · simp only [loopEmit, hemp, Bool.false_eq_true, if_false]
    have hemp2 : (stepState env st).chunks.isEmpty = false := by
      rw [show (stepState env st).chunks = (nextBatchFull env st).2.1 from rfl]
      cases hch : (nextBatchFull env st).2.1 with
      | nil => exact absurd hch hrem
      | cons a l => rfl
    simp only [loopEmit, hemp2, Bool.false_eq_true, if_false, List.length_cons]
    omega

/-- Claim C6 counterexample: with every fetch failing, the loop over two
chunks with batch size one emits an error window at index 0 and then another
window at index 1: production does not stop after the error window. -/
theorem c6_counterexample :
    (loopEmit envBadW stC2W 2).map (fun ob => ob.map ChunkBatch.err) =
      [some (some (GoError.other 7)), some (some (GoError.other 7))] := by decide

/-- Claim C6 witness: the amended theorem applies to the failing two-chunk
instance: a second window follows the first. -/
theorem c6_witness : 2 ≤ (loopEmit envBadW stC2W 2).length :=
  (c6_loop_continues envBadW stC2W 0 (by decide) (by decide)).2
